import Mathlib

/-!
Verification of the fuzzy rule-matching and dispatch core of `just-shell`
(`src/main.rs`), shallowly embedded in Lean 4.

Modelling conventions:
* Rust strings are modelled by their character sequences (`List Char`),
  matching the char-level operations of the source (`.chars().enumerate()`,
  char positions returned by the fuzzy matcher).
* The thread-local `MATCHER : SkimMatcherV2` is an external crate object; it
  is modelled as an explicit parameter `m : FuzzyM` of the functions that use
  it, where `m name pattern` plays the role of `m.fuzzy_indices(name, pattern)`
  (score and matched char positions) and `(m name pattern).map Prod.fst` plays
  the role of `m.fuzzy_match(name, pattern)` (score only) — in the crate both
  run the same algorithm.
* Machine integers (`i64` scores) are modelled by `Int`; no arithmetic in the
  embedded code can overflow in the modelled behaviours.
* Fallible operations (`unwrap` panics) are modelled with `Option` /
  explicit crash constructors.
-/

/-- Rust strings viewed as their character sequences. -/
abbrev Str := List Char

/-- `Rule { name, args }` from `src/main.rs`. -/
structure Rule where
  name : Str
  args : List Str
deriving DecidableEq

/-- `Alias { alias, rule }` from `src/main.rs` (`alias` is a Lean keyword, so
the field is called `aliasName`). -/
structure Alias where
  aliasName : Str
  rule : Str
deriving DecidableEq

/-- `Justfile { rules, aliases }` from `src/main.rs`. -/
structure Justfile where
  rules : List Rule
  aliases : List Alias
deriving DecidableEq

/-- The interface of the external fuzzy matcher: given a candidate name and a
pattern, optionally return a score and the matched character positions
(`fuzzy_indices`). -/
abbrev FuzzyM := Str → Str → Option (Int × List Nat)

/-- Rust `str::split_whitespace`: the maximal non-empty runs of
non-whitespace characters. -/
def splitWS (cs : Str) : List Str :=
  (List.splitOnP (fun c => c.isWhitespace) cs).filter (fun t => t ≠ [])

/-- Rust `str::trim`: drop leading and trailing whitespace characters. -/
def trimL (cs : Str) : Str :=
  ((cs.dropWhile Char.isWhitespace).reverse.dropWhile Char.isWhitespace).reverse

/-- Rust `str::split_once(needle)`: split at the first occurrence of
`needle`, returning the parts before and after it. -/
def splitOnceStr (needle : Str) : Str → Option (Str × Str)
  | [] => if needle = [] then some ([], []) else none
  | c :: cs =>
    if needle.isPrefixOf (c :: cs) then some ([], (c :: cs).drop needle.length)
    else (splitOnceStr needle cs).map (fun pr => (c :: pr.1, pr.2))

/-- The unsorted match list of `Justfile::matches`, before sorting:
`self.rules.iter().filter_map(|r| Some((r, m.fuzzy_indices(&r.name, pattern)?)))`
— the matching rules in catalog order, each with its score and matched
positions. -/
def scoredRules (m : FuzzyM) (j : Justfile) (pattern : Str) :
    List (Rule × Int × List Nat) :=
  j.rules.filterMap (fun r => (m r.name pattern).map (fun sp => (r, sp)))

/-- One step of the stable sort used by `Justfile::matches`: insert an element
into a list sorted by descending score, placing it before the first element of
score `≤` its own (so elements that arrived earlier stay first on ties). -/
def insertByScore (x : Rule × Int × List Nat) :
    List (Rule × Int × List Nat) → List (Rule × Int × List Nat)
  | [] => [x]
  | y :: ys => if y.2.1 ≤ x.2.1 then x :: y :: ys else y :: insertByScore x ys

/-- Stable sort by descending score. Rust's `sort_by_key(|(_, (s, _))| -s)` is
a stable ascending sort on the negated score, i.e. a stable descending sort on
the score; any stable sorting algorithm produces the same list, so a stable
insertion sort models it faithfully. -/
def sortByScoreDesc :
    List (Rule × Int × List Nat) → List (Rule × Int × List Nat)
  | [] => []
  | x :: l => insertByScore x (sortByScoreDesc l)

/-- `Justfile::matches` from `src/main.rs`: the matching rules with their
scores and matched positions, stably sorted by descending score. -/
def Justfile.matches (m : FuzzyM) (j : Justfile) (pattern : Str) :
    List (Rule × Int × List Nat) :=
  sortByScoreDesc (scoredRules m j pattern)

/-- Rust `Iterator::max_by_key` (over the key `Int`): the element with the
maximal key; when several elements are equally maximal, the last one is
returned. -/
def maxByKeyLast {α : Type} (key : α → Int) (l : List α) : Option α :=
  l.foldl
    (fun acc x =>
      match acc with
      | none => some x
      | some mx => if key mx ≤ key x then some x else some mx)
    none

/-- `Justfile::best_match` from `src/main.rs`: with an absent or empty
pattern, the first rule; otherwise the maximal-score rule of the reversed
rule list under `max_by_key` (last max wins). -/
def Justfile.best_match (m : FuzzyM) (j : Justfile) (pattern : Option Str) :
    Option Rule :=
  let p := pattern.getD []
  if p = [] then j.rules.head?
  else
    (maxByKeyLast (fun sr => sr.1)
        (j.rules.reverse.filterMap
          (fun r => ((m r.name p).map Prod.fst).map (fun s => (s, r))))).map
      (fun sr => sr.2)

/-! ### The spec-modelled fuzzy matcher

`SkimMatcherV2` comes from the external `fuzzy-matcher` crate and is not part
of this repository's sources, so its behaviour is modelled from the spec. -/

/-- A word-separator character for boundary bonuses. -/
def isSepChar (c : Char) : Bool := c = ' ' || c = '-' || c = '_'

/-- Greedy leftmost subsequence match of the pattern against the suffix `cs`
of the candidate name that starts at character offset `i`; returns the chosen
positions (in the full name) when every pattern character is found in order. -/
def subseqPositions (cs : Str) (i : Nat) (p : Str) : Option (List Nat) :=
  match p, cs with
  | [], _ => some []
  | _ :: _, [] => none
  | q :: qs, c :: cs' =>
    if c = q then (subseqPositions cs' (i + 1) qs).map (fun ps => i :: ps)
    else subseqPositions cs' (i + 1) (q :: qs)

/-- Bonus for consecutive matched positions (contiguous runs score higher). -/
def consecBonus : List Nat → Int
  | p :: q :: rest => (if q = p + 1 then 8 else 0) + consecBonus (q :: rest)
  | _ => 0

/-- Bonus for positions anchored at a word boundary (start of the name or
right after a separator character). -/
def boundaryBonus (name : Str) (ps : List Nat) : Int :=
  ps.foldl
    (fun acc p =>
      acc + (if p = 0 then 12 else if isSepChar (name.getD (p - 1) 'a') then 12 else 0))
    0

/-- Modelled from the spec: the fuzzy matcher (`SkimMatcherV2` of the external
`fuzzy-matcher` crate, absent from this repository's sources). Per the spec:
an empty query matches everything with score 0 and no positions; otherwise the
query must occur as a case-sensitive subsequence of the name (greedy leftmost
alignment), and the score rewards matched characters, consecutive runs, word
boundary anchors, and shorter names. -/
def specMatcher : FuzzyM := fun name pattern =>
  if pattern = [] then some (0, [])
  else
    (subseqPositions name 0 pattern).map
      (fun ps =>
        (16 * (ps.length : Int) + consecBonus ps + boundaryBonus name ps -
            (name.length : Int),
          ps))

/-! ### Lemmas about the stable sort -/

theorem insertByScore_perm (x : Rule × Int × List Nat)
    (l : List (Rule × Int × List Nat)) :
    (insertByScore x l).Perm (x :: l) := by
  induction l with
  | nil => simp [insertByScore]
  | cons y ys ih =>
    by_cases h : y.2.1 ≤ x.2.1
    · simp [insertByScore, h]
    · simp only [insertByScore, h, if_false]
      exact ((ih.cons y).trans (List.Perm.swap x y ys))

theorem sortByScoreDesc_perm (l : List (Rule × Int × List Nat)) :
    (sortByScoreDesc l).Perm l := by
  induction l with
  | nil => simp [sortByScoreDesc]
  | cons x xs ih =>
    exact (insertByScore_perm x (sortByScoreDesc xs)).trans (ih.cons x)

theorem insertByScore_pairwise {x : Rule × Int × List Nat}
    {l : List (Rule × Int × List Nat)}
    (hl : l.Pairwise (fun a b => b.2.1 ≤ a.2.1)) :
    (insertByScore x l).Pairwise (fun a b => b.2.1 ≤ a.2.1) := by
  induction l with
  | nil => simp [insertByScore]
  | cons y ys ih =>
    rcases List.pairwise_cons.mp hl with ⟨hy, hys⟩
    by_cases h : y.2.1 ≤ x.2.1
    · simp only [insertByScore, h, if_true]
      refine List.pairwise_cons.mpr ⟨?_, hl⟩
      intro b hb
      rcases List.mem_cons.mp hb with hb | hb
      · subst hb; exact h
      · exact le_trans (hy b hb) h
    · simp only [insertByScore, h, if_false]
      refine List.pairwise_cons.mpr ⟨?_, ih hys⟩
      intro b hb
      rcases List.mem_cons.mp ((insertByScore_perm x ys).mem_iff.mp hb) with hb | hb
      · subst hb; exact le_of_lt (lt_of_not_le h)
      · exact hy b hb

theorem sortByScoreDesc_pairwise (l : List (Rule × Int × List Nat)) :
    (sortByScoreDesc l).Pairwise (fun a b => b.2.1 ≤ a.2.1) := by
  induction l with
  | nil => simp [sortByScoreDesc]
  | cons x xs ih => exact insertByScore_pairwise ih

theorem filter_insertByScore (s : Int) (x : Rule × Int × List Nat)
    (l : List (Rule × Int × List Nat)) :
    (insertByScore x l).filter (fun e => e.2.1 = s) =
      if x.2.1 = s then x :: l.filter (fun e => e.2.1 = s)
      else l.filter (fun e => e.2.1 = s) := by
  induction l with
  | nil =>
    by_cases hx : x.2.1 = s <;> simp [insertByScore, List.filter, hx]
  | cons y ys ih =>
    by_cases h : y.2.1 ≤ x.2.1
    · simp only [insertByScore, if_pos h]
      by_cases hx : x.2.1 = s <;>
        simp [List.filter_cons, hx]
    · simp only [insertByScore, if_neg h]
      by_cases hx : x.2.1 = s
      · have hy : ¬ y.2.1 = s := by
          intro hy
          exact absurd (le_of_eq (hy.trans hx.symm)) h
        rw [List.filter_cons_of_neg (by simpa using hy), ih,
          List.filter_cons_of_neg (by simpa using hy)]
      · by_cases hy : y.2.1 = s
        · rw [List.filter_cons_of_pos (by simpa using hy), ih, if_neg hx,
            List.filter_cons_of_pos (by simpa using hy), if_neg hx]
        · rw [List.filter_cons_of_neg (by simpa using hy), ih, if_neg hx,
            List.filter_cons_of_neg (by simpa using hy), if_neg hx]

theorem filter_sortByScoreDesc (s : Int) (l : List (Rule × Int × List Nat)) :
    (sortByScoreDesc l).filter (fun e => e.2.1 = s) =
      l.filter (fun e => e.2.1 = s) := by
  induction l with
  | nil => simp [sortByScoreDesc]
  | cons x xs ih =>
    by_cases hx : x.2.1 = s <;>
      simp [sortByScoreDesc, filter_insertByScore, hx, List.filter_cons, ih]

/-! ### C4 -/

/-- C4: for every matcher, catalog and query, the list returned by
`Justfile::matches` is a permutation of the matching rules, is sorted in
descending order of score, and is stable: for every score, the entries of
that score appear exactly in the order of `scoredRules` — the catalog
(insertion) order restricted to matching rules. -/
theorem matches_sorted_stable (m : FuzzyM) (j : Justfile) (q : Str) :
    (Justfile.matches m j q).Perm (scoredRules m j q) ∧
      (Justfile.matches m j q).Pairwise (fun a b => b.2.1 ≤ a.2.1) ∧
      ∀ s : Int,
        (Justfile.matches m j q).filter (fun e => e.2.1 = s) =
          (scoredRules m j q).filter (fun e => e.2.1 = s) :=
  ⟨sortByScoreDesc_perm _, sortByScoreDesc_pairwise _,
    fun s => filter_sortByScoreDesc s _⟩

/-! ### Lemmas about `max_by_key` over a reversed list -/

/-- One step of `firstArgmax`: combine the current element with the best
candidate found to its right, the current element winning ties. -/
def argmaxStep {α : Type} (key : α → Int) (x : α) (acc : Option α) : Option α :=
  match acc with
  | none => some x
  | some mx => if key mx ≤ key x then some x else some mx

/-- The element with the maximal key, the first among equals. Scanning the
catalog in reverse with a last-max-wins `max_by_key` selects exactly this
element of the unreversed list. -/
def firstArgmax {α : Type} (key : α → Int) (l : List α) : Option α :=
  l.foldr (argmaxStep key) none

theorem maxByKeyLast_reverse {α : Type} (key : α → Int) (l : List α) :
    maxByKeyLast key l.reverse = firstArgmax key l := by
  induction l with
  | nil => rfl
  | cons x xs ih =>
    simp only [maxByKeyLast, List.reverse_cons, List.foldl_append,
      List.foldl_cons, List.foldl_nil] at *
    rw [ih]
    show _ = argmaxStep key x (firstArgmax key xs)
    cases firstArgmax key xs with
    | none => rfl
    | some mx => rfl

theorem firstArgmax_eq_none {α : Type} (key : α → Int) (l : List α) :
    firstArgmax key l = none ↔ l = [] := by
  cases l with
  | nil => simp [firstArgmax]
  | cons x xs =>
    simp only [firstArgmax, List.foldr_cons]
    cases List.foldr (argmaxStep key) none xs with
    | none => simp [argmaxStep]
    | some mx =>
      by_cases h : key mx ≤ key x <;> simp [argmaxStep, h]

/-- Characterization of `firstArgmax` over a `filterMap` that pairs each
element with its optional score: the result is a scored element whose score is
globally maximal and which occurs before every other element of maximal
score. -/
theorem firstArgmax_filterMap_spec {α : Type} (sc : α → Option Int)
    (l : List α) (s : Int) (x : α)
    (h : firstArgmax (fun e => e.1)
        (l.filterMap (fun a => (sc a).map (fun t => (t, a)))) = some (s, x)) :
    ∃ i, l[i]? = some x ∧ sc x = some s ∧
      (∀ (k : Nat) (y : α) (t : Int), l[k]? = some y → sc y = some t → t ≤ s) ∧
      (∀ (k : Nat) (y : α) (t : Int), k < i → l[k]? = some y → sc y = some t → t < s) := by
  induction l generalizing s x with
  | nil => simp [firstArgmax] at h
  | cons a l ih =>
    rw [List.filterMap_cons] at h
    cases hsc : sc a with
    | none =>
      rw [hsc] at h
      simp only [Option.map_none'] at h
      rcases ih s x h with ⟨i, hget, hx, hmax, hstrict⟩
      refine ⟨i + 1, by simpa using hget, hx, ?_, ?_⟩
      · intro k y t hk ht
        cases k with
        | zero =>
          simp only [List.getElem?_cons_zero, Option.some_inj] at hk
          subst hk
          rw [hsc] at ht
          exact absurd ht (by simp)
        | succ k' =>
          exact hmax k' y t (by simpa using hk) ht
      · intro k y t hki hk ht
        cases k with
        | zero =>
          simp only [List.getElem?_cons_zero, Option.some_inj] at hk
          subst hk
          rw [hsc] at ht
          exact absurd ht (by simp)
        | succ k' =>
          exact hstrict k' y t (by omega) (by simpa using hk) ht
    | some s₀ =>
      rw [hsc] at h
      simp only [Option.map_some'] at h
      rw [show firstArgmax (fun e => e.1)
            ((s₀, a) :: l.filterMap (fun a => (sc a).map (fun t => (t, a)))) =
          argmaxStep (fun e => e.1) (s₀, a)
            (firstArgmax (fun e => e.1)
              (l.filterMap (fun a => (sc a).map (fun t => (t, a)))))
        from rfl] at h
      cases hfa : firstArgmax (fun e => e.1)
          (l.filterMap (fun a => (sc a).map (fun t => (t, a)))) with
      | none =>
        rw [hfa] at h
        simp only [argmaxStep, Option.some_inj, Prod.mk.injEq] at h
        obtain ⟨hs, hx⟩ := h
        subst hs; subst hx
        have hnil : l.filterMap (fun a => (sc a).map (fun t => (t, a))) = [] :=
          ((firstArgmax_eq_none _ _).mp hfa)
        have hnone : ∀ b ∈ l, sc b = none := by
          intro b hb
          have := (List.filterMap_eq_nil_iff.mp hnil) b hb
          exact Option.map_eq_none'.mp this
        refine ⟨0, by simp, hsc, ?_, ?_⟩
        · intro k y t hk ht
          cases k with
          | zero =>
            simp only [List.getElem?_cons_zero, Option.some_inj] at hk
            subst hk
            rw [hsc] at ht
            exact le_of_eq (Option.some_inj.mp ht).symm
          | succ k' =>
            have hy : y ∈ l := List.getElem?_mem (l := l) (by simpa using hk)
            rw [hnone y hy] at ht
            exact absurd ht (by simp)
        · intro k y t hki _ _
          exact absurd hki (Nat.not_lt_zero k)
      | some mx =>
        rw [hfa] at h
        obtain ⟨sm, xm⟩ := mx
        simp only [argmaxStep] at h
        rcases ih sm xm hfa with ⟨im, hgm, hscm, hmaxm, hstrictm⟩
        by_cases hle : sm ≤ s₀
        · rw [if_pos hle] at h
          simp only [Option.some_inj, Prod.mk.injEq] at h
          obtain ⟨hs, hx⟩ := h
          subst hs; subst hx
          refine ⟨0, by simp, hsc, ?_, ?_⟩
          · intro k y t hk ht
            cases k with
            | zero =>
              simp only [List.getElem?_cons_zero, Option.some_inj] at hk
              subst hk
              rw [hsc] at ht
              exact le_of_eq (Option.some_inj.mp ht).symm
            | succ k' =>
              exact le_trans (hmaxm k' y t (by simpa using hk) ht) hle
          · intro k y t hki _ _
            exact absurd hki (Nat.not_lt_zero k)
        · rw [if_neg hle] at h
          simp only [Option.some_inj, Prod.mk.injEq] at h
          obtain ⟨hs, hx⟩ := h
          subst hs; subst hx
          have hlt : s₀ < sm := lt_of_not_le hle
          refine ⟨im + 1, by simpa using hgm, hscm, ?_, ?_⟩
          · intro k y t hk ht
            cases k with
            | zero =>
              simp only [List.getElem?_cons_zero, Option.some_inj] at hk
              subst hk
              rw [hsc] at ht
              exact le_of_lt (lt_of_le_of_lt (le_of_eq (Option.some_inj.mp ht).symm) hlt)
            | succ k' =>
              exact hmaxm k' y t (by simpa using hk) ht
          · intro k y t hki hk ht
            cases k with
            | zero =>
              simp only [List.getElem?_cons_zero, Option.some_inj] at hk
              subst hk
              rw [hsc] at ht
              exact lt_of_le_of_lt (le_of_eq (Option.some_inj.mp ht).symm) hlt
            | succ k' =>
              exact hstrictm k' y t (by omega) (by simpa using hk) ht

theorem firstArgmax_isSome {α : Type} (key : α → Int) {l : List α}
    (h : l ≠ []) : (firstArgmax key l).isSome := by
  cases hfa : firstArgmax key l with
  | none => exact absurd ((firstArgmax_eq_none key l).mp hfa) h
  | some mx => rfl

/-! ### C2 -/

/-- C2: for every matcher, catalog and non-empty token, when `best_match`
returns a rule, that rule occurs in the catalog at a position `i`, its fuzzy
score is maximal among all matching rules, and every earlier rule's score is
strictly smaller (so on ties the rule earliest in catalog order wins); and
whenever some rule matches, `best_match` does return a rule. -/
theorem best_match_argmax (m : FuzzyM) (j : Justfile) (p : Str) (hp : p ≠ []) :
    (∀ r, Justfile.best_match m j (some p) = some r →
      ∃ i s, j.rules[i]? = some r ∧ (m r.name p).map Prod.fst = some s ∧
        (∀ (k : Nat) (r' : Rule) (s' : Int), j.rules[k]? = some r' →
          (m r'.name p).map Prod.fst = some s' → s' ≤ s) ∧
        (∀ (k : Nat) (r' : Rule) (s' : Int), k < i → j.rules[k]? = some r' →
          (m r'.name p).map Prod.fst = some s' → s' < s)) ∧
    (∀ (r' : Rule) (s' : Int), r' ∈ j.rules →
      (m r'.name p).map Prod.fst = some s' →
      (Justfile.best_match m j (some p)).isSome) := by
  constructor
  · intro r hr
    unfold Justfile.best_match at hr
    simp only [Option.getD_some] at hr
    rw [if_neg hp] at hr
    rw [List.filterMap_reverse, maxByKeyLast_reverse] at hr
    rcases Option.map_eq_some'.mp hr with ⟨⟨s, r'⟩, hfa, hr'⟩
    simp only at hr'
    subst hr'
    rcases firstArgmax_filterMap_spec
        (fun r'' => (m r''.name p).map Prod.fst) j.rules s r' hfa with
      ⟨i, hget, hsc, hmax, hstrict⟩
    exact ⟨i, s, hget, hsc, hmax, hstrict⟩
  · intro r' s' hmem hsc
    unfold Justfile.best_match
    simp only [Option.getD_some]
    rw [if_neg hp]
    rw [List.filterMap_reverse, maxByKeyLast_reverse, Option.isSome_map']
    apply firstArgmax_isSome
    intro hnil
    have hmem' : (s', r') ∈
        j.rules.filterMap
          (fun r => ((m r.name p).map Prod.fst).map (fun s => (s, r))) :=
      List.mem_filterMap.mpr ⟨r', hmem, by rw [hsc]; rfl⟩
    rw [hnil] at hmem'
    exact absurd hmem' (List.not_mem_nil _)

/-- A small concrete catalog for witnesses: rules `build` and `test`, no
aliases. -/
def jW : Justfile :=
  ⟨[⟨"build".toList, []⟩, ⟨"test".toList, []⟩], []⟩

theorem best_match_argmax_witness :
    ("te".toList ≠ []) ∧
    ((∀ r, Justfile.best_match specMatcher jW (some "te".toList) = some r →
      ∃ i s, jW.rules[i]? = some r ∧
        (specMatcher r.name "te".toList).map Prod.fst = some s ∧
        (∀ (k : Nat) (r' : Rule) (s' : Int), jW.rules[k]? = some r' →
          (specMatcher r'.name "te".toList).map Prod.fst = some s' → s' ≤ s) ∧
        (∀ (k : Nat) (r' : Rule) (s' : Int), k < i → jW.rules[k]? = some r' →
          (specMatcher r'.name "te".toList).map Prod.fst = some s' → s' < s)) ∧
      (∀ (r' : Rule) (s' : Int), r' ∈ jW.rules →
        (specMatcher r'.name "te".toList).map Prod.fst = some s' →
        (Justfile.best_match specMatcher jW (some "te".toList)).isSome)) :=
  ⟨by decide, best_match_argmax specMatcher jW ("te".toList) (by decide)⟩

/-! ### Lemmas about the spec-modelled subsequence matcher -/

theorem subseqPositions_go (cs : Str) :
    ∀ (p : Str) (i : Nat) (ps : List Nat),
      subseqPositions cs i p = some ps →
      ps.Pairwise (· < ·) ∧ (∀ x ∈ ps, i ≤ x) ∧ ps.length = p.length ∧
        ∀ (k pos : Nat), ps[k]? = some pos → i ≤ pos ∧ cs[pos - i]? = p[k]? := by
  induction cs with
  | nil =>
    intro p i ps h
    cases p with
    | nil =>
      simp only [subseqPositions, Option.some_inj] at h
      subst h
      refine ⟨List.Pairwise.nil, by simp, rfl, ?_⟩
      intro k pos hk
      simp at hk
    | cons q qs => simp [subseqPositions] at h
  | cons c cs' ih =>
    intro p i ps h
    cases p with
    | nil =>
      simp only [subseqPositions, Option.some_inj] at h
      subst h
      refine ⟨List.Pairwise.nil, by simp, rfl, ?_⟩
      intro k pos hk
      simp at hk
    | cons q qs =>
      simp only [subseqPositions] at h
      by_cases hcq : c = q
      · rw [if_pos hcq] at h
        rcases Option.map_eq_some'.mp h with ⟨tail, htail, hps⟩
        subst hps
        rcases ih qs (i + 1) tail htail with ⟨hpw, hge, hlen, hpos⟩
        refine ⟨?_, ?_, by simp [hlen], ?_⟩
        · exact List.pairwise_cons.mpr
            ⟨fun x hx => Nat.lt_of_succ_le (hge x hx), hpw⟩
        · intro x hx
          rcases List.mem_cons.mp hx with hx | hx
          · exact le_of_eq hx.symm
          · exact le_trans (Nat.le_succ i) (hge x hx)
        · intro k pos hk
          cases k with
          | zero =>
            simp only [List.getElem?_cons_zero, Option.some_inj] at hk
            subst hk
            refine ⟨le_refl _, ?_⟩
            simp [hcq]
          | succ k' =>
            rcases hpos k' pos (by simpa using hk) with ⟨hip, hcs⟩
            refine ⟨le_trans (Nat.le_succ i) hip, ?_⟩
            rw [show pos - i = (pos - (i + 1)) + 1 by omega,
              List.getElem?_cons_succ]
            simpa using hcs
      · rw [if_neg hcq] at h
        rcases ih (q :: qs) (i + 1) ps h with ⟨hpw, hge, hlen, hpos⟩
        refine ⟨hpw, fun x hx => le_trans (Nat.le_succ i) (hge x hx), hlen, ?_⟩
        intro k pos hk
        rcases hpos k pos hk with ⟨hip, hcs⟩
        refine ⟨le_trans (Nat.le_succ i) hip, ?_⟩
        rw [show pos - i = (pos - (i + 1)) + 1 by omega,
          List.getElem?_cons_succ]
        exact hcs

theorem subseqPositions_isSome_iff (cs : Str) :
    ∀ (p : Str) (i : Nat),
      (subseqPositions cs i p).isSome ↔ p.Sublist cs := by
  induction cs with
  | nil =>
    intro p i
    cases p with
    | nil => simp [subseqPositions]
    | cons q qs => simp [subseqPositions]
  | cons c cs' ih =>
    intro p i
    cases p with
    | nil => simp [subseqPositions, List.nil_sublist]
    | cons q qs =>
      simp only [subseqPositions]
      by_cases hcq : c = q
      · subst hcq
        rw [if_pos rfl, Option.isSome_map', ih qs (i + 1),
          List.cons_sublist_cons]
      · rw [if_neg hcq, ih (q :: qs) (i + 1)]
        constructor
        · intro hsub
          exact hsub.cons c
        · intro hsub
          rcases List.sublist_cons_iff.mp hsub with hsub | ⟨r, hr, _⟩
          · exact hsub
          · refine absurd hr ?_
            intro hr'
            injection hr' with h1 _
            exact hcq h1.symm

/-! ### C5 -/

/-- C5: with the spec-modelled matcher, every match entry for a non-empty
query has strictly increasing matched positions, one per query character,
each a valid character offset of the rule name at which the name carries the
corresponding query character; and a rule in which the query does not occur
as a subsequence appears in no match entry at all. -/
theorem matches_positions_valid (j : Justfile) (q : Str) (hq : q ≠ []) :
    (∀ e ∈ Justfile.matches specMatcher j q,
        e.2.2.Pairwise (· < ·) ∧ e.2.2.length = q.length ∧
        ∀ (k pos : Nat), e.2.2[k]? = some pos →
          pos < e.1.name.length ∧ e.1.name[pos]? = q[k]?) ∧
    (∀ r : Rule, ¬ q.Sublist r.name → ∀ (s : Int) (ps : List Nat),
        (r, s, ps) ∉ Justfile.matches specMatcher j q) := by
  constructor
  · intro e he
    have he' : e ∈ scoredRules specMatcher j q :=
      (sortByScoreDesc_perm _).mem_iff.mp he
    rcases List.mem_filterMap.mp he' with ⟨r, _, hmap⟩
    rcases Option.map_eq_some'.mp hmap with ⟨sp, hsp, hesp⟩
    subst hesp
    simp only [specMatcher, if_neg hq] at hsp
    rcases Option.map_eq_some'.mp hsp with ⟨ps, hps, hsp'⟩
    subst hsp'
    rcases subseqPositions_go r.name q 0 ps hps with ⟨hpw, _, hlen, hpos⟩
    refine ⟨hpw, hlen, ?_⟩
    intro k pos hk
    rcases hpos k pos hk with ⟨_, hcs⟩
    rw [Nat.sub_zero] at hcs
    have hklt : k < ps.length := by
      by_contra hge
      rw [List.getElem?_eq_none (Nat.le_of_not_lt hge)] at hk
      exact absurd hk (by simp)
    have hq' : q[k]?.isSome := by
      rw [List.getElem?_eq_getElem (hlen ▸ hklt)]
      rfl
    have hns : (r.name[pos]?).isSome := hcs ▸ hq'
    refine ⟨?_, hcs⟩
    by_contra hge2
    rw [List.getElem?_eq_none (Nat.le_of_not_lt hge2)] at hns
    exact absurd hns (by simp)
  · intro r hnsub s ps hmem
    have hmem' : (r, s, ps) ∈ scoredRules specMatcher j q :=
      (sortByScoreDesc_perm _).mem_iff.mp hmem
    rcases List.mem_filterMap.mp hmem' with ⟨r', _, hmap⟩
    rcases Option.map_eq_some'.mp hmap with ⟨sp, hsp, hesp⟩
    have hr : r' = r := congrArg Prod.fst hesp
    subst hr
    simp only [specMatcher, if_neg hq] at hsp
    have : (subseqPositions r'.name 0 q).isSome := by
      rcases Option.map_eq_some'.mp hsp with ⟨ps', hps', _⟩
      rw [hps']
      rfl
    exact absurd ((subseqPositions_isSome_iff r'.name q 0).mp this) hnsub

theorem matches_positions_valid_witness :
    ("te".toList ≠ []) ∧
    ((∀ e ∈ Justfile.matches specMatcher jW "te".toList,
        e.2.2.Pairwise (· < ·) ∧ e.2.2.length = ("te".toList).length ∧
        ∀ (k pos : Nat), e.2.2[k]? = some pos →
          pos < e.1.name.length ∧ e.1.name[pos]? = ("te".toList)[k]?) ∧
      (∀ r : Rule, ¬ ("te".toList).Sublist r.name →
        ∀ (s : Int) (ps : List Nat),
          (r, s, ps) ∉ Justfile.matches specMatcher jW "te".toList)) :=
  ⟨by decide, matches_positions_valid jW ("te".toList) (by decide)⟩

/-! ### C6 -/

theorem scoredRules_empty_query (l : List Rule) :
    l.filterMap (fun r => (specMatcher r.name []).map (fun sp => (r, sp))) =
      l.map (fun r => (r, (0 : Int), ([] : List Nat))) := by
  induction l with
  | nil => rfl
  | cons r rest ih =>
    rw [List.filterMap_cons, List.map_cons, ← ih]
    rfl

theorem insertByScore_zero_head (x : Rule × Int × List Nat) (hx : x.2.1 = 0)
    (l : List (Rule × Int × List Nat)) (hl : ∀ e ∈ l, e.2.1 = 0) :
    insertByScore x l = x :: l := by
  cases l with
  | nil => rfl
  | cons e es =>
    have he := hl e (List.mem_cons_self e es)
    simp only [insertByScore]
    rw [if_pos (le_of_eq (by rw [he, hx]))]

theorem sortByScoreDesc_map_zero (l : List Rule) :
    sortByScoreDesc (l.map (fun r => (r, (0 : Int), ([] : List Nat)))) =
      l.map (fun r => (r, 0, [])) := by
  induction l with
  | nil => rfl
  | cons r rest ih =>
    simp only [List.map_cons, sortByScoreDesc]
    rw [ih]
    refine insertByScore_zero_head _ rfl _ ?_
    intro e he
    rcases List.mem_map.mp he with ⟨r', _, hr'⟩
    rw [← hr']

/-- C6: with the spec-modelled matcher, the empty query matches every rule of
the catalog with score 0 and no matched positions, in catalog order. -/
theorem matches_empty_query (j : Justfile) :
    Justfile.matches specMatcher j [] =
      j.rules.map (fun r => (r, (0 : Int), ([] : List Nat))) := by
  unfold Justfile.matches scoredRules
  rw [scoredRules_empty_query, sortByScoreDesc_map_zero]

/-! ### The dispatch step of the interactive loop

One iteration of `main`'s loop after a line was submitted (src/main.rs lines
135–146): split the line on whitespace, resolve the first token with
`best_match`, `.unwrap()` the result (a panic when it is `None`), run the
subprocess and observe its exit status, then either extend the history (exit
status 0) or report the code (`r.code().unwrap()`, a panic when the process
was killed by a signal and has no code). The subprocess exit status is an
external input, passed as `exit` (`none` models a signal death without a
code); appending to the rustyline history is an external effect, modelled per
the spec as appending the raw line to the history list. -/

/-- The observable outcome of one loop iteration: either the subprocess was
invoked for a rule with the remaining tokens, leaving a new history and an
optional reported exit code, and the loop returns to its idle state — or the
iteration panicked (`unwrap` on `None`), aborting the process. -/
inductive StepResult where
  | invoked (rule : Rule) (args : List Str) (hist : List Str)
      (report : Option Int)
  | crashed
deriving DecidableEq

def loopIter (m : FuzzyM) (j : Justfile) (hist : List Str) (line : Str)
    (exit : Option Int) : StepResult :=
  match Justfile.best_match m j (splitWS line).head? with
  | none => .crashed
  | some rule =>
    if exit = some 0 then
      .invoked rule (splitWS line).tail (hist ++ [line]) none
    else
      match exit with
      | some code => .invoked rule (splitWS line).tail hist (some code)
      | none => .crashed

/-! ### C1 -/

/-- C1: at the failing input — catalog holding the single rule `build`,
submitted line `zzz`, a token that no rule fuzzy-matches — dispatch
resolution does yield no-match, but the loop iteration crashes (the `unwrap`
panic aborts the process before any subprocess is invoked) instead of
returning to the idle state as the claim demands. -/
theorem no_match_crashes :
    Justfile.best_match specMatcher ⟨[⟨"build".toList, []⟩], []⟩
        (some ("zzz".toList)) = none ∧
      loopIter specMatcher ⟨[⟨"build".toList, []⟩], []⟩ [] ("zzz".toList)
        (some 0) = StepResult.crashed := by
  decide

/-! ### C8 -/

/-- C8: after a dispatched line, a zero exit status appends exactly the raw
submitted line to the history and reports nothing, while a nonzero exit
status leaves the history unchanged and reports the numeric code; in both
cases the iteration ends in the `invoked` state, returning to idle. -/
theorem dispatch_history (m : FuzzyM) (j : Justfile) (hist : List Str)
    (line : Str) (rule : Rule) (c : Int)
    (hres : Justfile.best_match m j (splitWS line).head? = some rule)
    (hc : c ≠ 0) :
    loopIter m j hist line (some 0) =
      StepResult.invoked rule (splitWS line).tail (hist ++ [line]) none ∧
    loopIter m j hist line (some c) =
      StepResult.invoked rule (splitWS line).tail hist (some c) := by
  constructor
  · unfold loopIter
    rw [hres]
    simp
  · unfold loopIter
    rw [hres]
    simp [hc]

theorem dispatch_history_witness :
    (Justfile.best_match specMatcher jW (splitWS ("te".toList)).head? =
      some ⟨"test".toList, []⟩) ∧
    ((2 : Int) ≠ 0) ∧
    (loopIter specMatcher jW [] ("te".toList) (some 0) =
      StepResult.invoked ⟨"test".toList, []⟩ (splitWS ("te".toList)).tail
        ([] ++ ["te".toList]) none ∧
    loopIter specMatcher jW [] ("te".toList) (some 2) =
      StepResult.invoked ⟨"test".toList, []⟩ (splitWS ("te".toList)).tail
        [] (some 2)) :=
  ⟨by decide, by decide,
    dispatch_history specMatcher jW [] ("te".toList) ⟨"test".toList, []⟩ 2
      (by decide) (by decide)⟩

/-! ### The catalog loader (`read`, src/main.rs lines 150–185)

The file-system side (opening and reading the `justfile`) is an external
boundary; the loader is modelled on the already-split list of lines. The
`parts.next().unwrap()` on the tokenized left-hand side of a rule header
panics when that side has no token; the model returns `none` for a load that
panics. -/

def processLine (acc : Justfile) (line : Str) : Option Justfile :=
  if line = [] then some acc
  else if ("alias ".toList).isPrefixOf line then
    match splitOnceStr [':', '='] (line.drop 6) with
    | some (a, r) =>
      some ⟨acc.rules, acc.aliases ++ [⟨trimL a, trimL r⟩]⟩
    | none => some acc
  else
    match splitOnceStr [':'] line with
    | some (lhs, _deps) =>
      if lhs.head? = some ' ' then some acc
      else
        match splitWS lhs with
        | name :: args => some ⟨acc.rules ++ [⟨trimL name, args⟩], acc.aliases⟩
        | [] => none
    | none => some acc

/-- The loader `read` of `src/main.rs` over the lines of the justfile text
(named `readJustfile` here because plain `read` clashes with a core library
export). -/
def readJustfile (ls : List Str) : Option Justfile :=
  ls.foldlM processLine ⟨[], []⟩

/-- The rule that a line contributes under the code's actual classification
(`none` when it contributes no rule). -/
def codeRuleOfLine (line : Str) : Option Rule :=
  if line = [] then none
  else if ("alias ".toList).isPrefixOf line then none
  else
    match splitOnceStr [':'] line with
    | some (lhs, _deps) =>
      if lhs.head? = some ' ' then none
      else
        match splitWS lhs with
        | name :: args => some ⟨trimL name, args⟩
        | [] => none
    | none => none

/-- The alias that a line contributes under the code's actual
classification. -/
def codeAliasOfLine (line : Str) : Option Alias :=
  if line = [] then none
  else if ("alias ".toList).isPrefixOf line then
    match splitOnceStr [':', '='] (line.drop 6) with
    | some (a, r) => some ⟨trimL a, trimL r⟩
    | none => none
  else none

/-- Whether loading panics on this line: an unindented-by-space, non-alias
line containing a colon whose left-hand side has no whitespace token. -/
def linePanics (line : Str) : Bool :=
  if line = [] then false
  else if ("alias ".toList).isPrefixOf line then false
  else
    match splitOnceStr [':'] line with
    | some (lhs, _deps) =>
      decide (¬ lhs.head? = some ' ') && decide (splitWS lhs = [])
    | none => false

/-- The rule a line yields under the claim's classification, following the
spec's words: a line that is not indented (does not start with a whitespace
character) and contains a colon is a rule header; its name is the first
whitespace token left of the first colon, the remaining tokens its declared
argument names; every other line contributes no rule. -/
def claimRuleOfLine (line : Str) : Option Rule :=
  if line.head?.elim false Char.isWhitespace then none
  else
    match splitOnceStr [':'] line with
    | some (lhs, _deps) =>
      match splitWS lhs with
      | name :: args => some ⟨name, args⟩
      | [] => none
    | none => none

/-! ### C7 -/

/-- C7 counterexample: the claim's classification — in which every line
starting with a whitespace character is ignored — does not describe `read`: a
tab-indented line with a colon IS parsed as a rule, because the code checks
only for a leading space character. -/
theorem read_classification_counterexample :
    ¬ (∀ (ls : List Str) (j : Justfile), readJustfile ls = some j →
        j.rules = ls.filterMap claimRuleOfLine) := by
  intro hcl
  have h := hcl ["\tfoo: x".toList] ⟨[⟨"foo".toList, []⟩], []⟩ (by decide)
  revert h
  decide

theorem processLine_eq (acc : Justfile) (l : Str) :
    processLine acc l =
      if linePanics l then none
      else some ⟨acc.rules ++ (codeRuleOfLine l).toList,
        acc.aliases ++ (codeAliasOfLine l).toList⟩ := by
  unfold processLine linePanics codeRuleOfLine codeAliasOfLine
  by_cases h1 : l = []
  · simp [h1]
  · rw [if_neg h1, if_neg h1, if_neg h1, if_neg h1]
    by_cases h2 : ("alias ".toList).isPrefixOf l = true
    · rw [if_pos h2, if_pos h2, if_pos h2, if_pos h2]
      cases hsp : splitOnceStr [':', '='] (l.drop 6) with
      | some pr =>
        obtain ⟨a, r⟩ := pr
        simp
      | none => simp
    · rw [if_neg h2, if_neg h2, if_neg h2, if_neg h2]
      cases hsp : splitOnceStr [':'] l with
      | some pr =>
        obtain ⟨lhs, deps⟩ := pr
        by_cases h3 : lhs.head? = some ' '
        · simp [h3]
        · cases hws : splitWS lhs with
          | nil => simp [h3, hws]
          | cons name args => simp [h3, hws]
      | none => simp

theorem read_foldl (ls : List Str) :
    ∀ acc : Justfile,
      ls.foldlM processLine acc =
        if ls.any linePanics then none
        else some ⟨acc.rules ++ ls.filterMap codeRuleOfLine,
          acc.aliases ++ ls.filterMap codeAliasOfLine⟩ := by
  induction ls with
  | nil => intro acc; simp
  | cons l ls ih =>
    intro acc
    rw [List.foldlM_cons, processLine_eq]
    by_cases hp : linePanics l = true
    · simp [hp]
    · rw [if_neg hp]
      show List.foldlM processLine _ ls = _
      rw [ih ⟨acc.rules ++ (codeRuleOfLine l).toList,
        acc.aliases ++ (codeAliasOfLine l).toList⟩]
      cases hcr : codeRuleOfLine l with
      | none =>
        cases hca : codeAliasOfLine l with
        | none => simp [List.any_cons, hp, List.filterMap_cons, hcr, hca]
        | some al => simp [List.any_cons, hp, List.filterMap_cons, hcr, hca]
      | some ru =>
        cases hca : codeAliasOfLine l with
        | none => simp [List.any_cons, hp, List.filterMap_cons, hcr, hca]
        | some al => simp [List.any_cons, hp, List.filterMap_cons, hcr, hca]

/-- C7 (amended): `read` succeeds exactly when no line panics — a line
panics iff it is non-empty, does not start with `alias` followed by a space,
contains a colon, its text left of the first colon does not start with a
space character, and that text has no whitespace token — and on success the
catalog holds exactly, in order: one rule per non-empty line that does not
start with the `alias ` prefix, contains a colon, and whose left-hand side
does not start with a space character but has at least one whitespace token
(name = first token, arguments = remaining tokens); and one alias per
non-empty line that starts with the `alias ` prefix and whose remainder
contains `:=` (both sides trimmed). All other lines — including tab-indented
rule-body lines, which are NOT treated as indented by the code — are
ignored. -/
theorem read_classification (ls : List Str) :
    readJustfile ls =
      if ls.any linePanics then none
      else some ⟨ls.filterMap codeRuleOfLine, ls.filterMap codeAliasOfLine⟩ := by
  unfold readJustfile
  rw [read_foldl ls ⟨[], []⟩]
  simp

/-! ### The hint renderer (`MyHinter::hint`, src/main.rs lines 73–107)

The `colored` styling combinators are an external crate; they are modelled as
abstract string transformers applied to one-character strings: `fbug` for
bold+underline+green (matched char of the first candidate), `fbu` for
bold+underline (matched char of a later candidate), `fbg` for bold+green
(unmatched char of the first candidate); unmatched chars of later candidates
are pushed plain. -/

/-- Rust `usize::next_multiple_of`: the smallest multiple of `k` that is
`≥ n`. -/
def nextMultipleOf (n k : Nat) : Nat := ((n + k - 1) / k) * k

/-- Render one rule name char by char: a char whose index equals the head of
the remaining matched positions is styled with `fm` (and the position pointer
advances), every other char is styled with `fu`. -/
def renderName (fm fu : Str → Str) : Str → Nat → List Nat → Str
  | [], _, _ => []
  | c :: cs, i, ps =>
    match ps with
    | p :: ps' =>
      if p = i then fm [c] ++ renderName fm fu cs (i + 1) ps'
      else fu [c] ++ renderName fm fu cs (i + 1) (p :: ps')
    | [] => fu [c] ++ renderName fm fu cs (i + 1) []

/-- Render the candidates after the first: each is prefixed with a comma and
a space, matched chars styled with `fbu`, unmatched chars plain. -/
def renderRest (fbu : Str → Str) (ms : List (Rule × Int × List Nat)) : Str :=
  ms.foldl
    (fun acc e => acc ++ (',' :: ' ' :: renderName fbu id e.1.name 0 e.2.2)) []

/-- Render the comma-separated candidate listing: the first (best) candidate
with the green styles, the rest with the plain styles. -/
def renderCands (fbug fbu fbg : Str → Str) :
    List (Rule × Int × List Nat) → Str
  | [] => []
  | e :: rest => renderName fbug fbg e.1.name 0 e.2.2 ++ renderRest fbu rest

/-- `MyHinter::hint`: no hint when nothing matches; otherwise the format
produces one literal space, then `padding` spaces (the empty string
right-aligned to width `padding`), then the candidate listing of the top
`min(len, 10)` matches in parentheses, where
`padding = (pos + 1).next_multiple_of(10) - pos`. -/
def hintWith (m : FuzzyM) (fbug fbu fbg : Str → Str) (j : Justfile)
    (line : Str) (pos : Nat) : Option Str :=
  let ms := Justfile.matches m j line
  if ms = [] then none
  else
    let s := renderCands fbug fbu fbg (ms.take (min ms.length 10))
    let padding := nextMultipleOf (pos + 1) 10 - pos
    some (' ' :: (List.replicate padding ' ' ++ ('(' :: (s ++ [')']))))

/-- The number of space characters at the head of a string. -/
def leadingSpaces (cs : Str) : Nat := (cs.takeWhile (fun c => c = ' ')).length

/-- The concrete hint rendered for catalog `jW`, empty line, cursor 0, with
identity styling: eleven spaces before the candidate listing. -/
def hintVal : Str := "           (build, test)".toList

/-! ### C9 -/

/-- C9 counterexample: the rendered hint does not place
`(pos + 1).next_multiple_of(10) - pos` spaces before the candidate listing —
at cursor 0 that would be 10 spaces, but the hint carries 11, because the
format string emits one literal space before the padding. -/
theorem hint_padding_counterexample :
    ¬ (∀ (j : Justfile) (line : Str) (pos : Nat) (h : Str),
        hintWith specMatcher id id id j line pos = some h →
        leadingSpaces h = nextMultipleOf (pos + 1) 10 - pos) := by
  intro hcl
  have h := hcl jW [] 0 hintVal (by decide)
  revert h
  decide

theorem leadingSpaces_replicate (n : Nat) (rest : Str) :
    leadingSpaces (List.replicate n ' ' ++ ('(' :: rest)) = n := by
  induction n with
  | zero => simp [leadingSpaces, List.takeWhile_cons]
  | succ n ih =>
    simp only [leadingSpaces, List.replicate_succ, List.cons_append,
      List.takeWhile_cons] at ih ⊢
    simp only [decide_eq_true_eq] at ih ⊢
    simp [ih]

theorem leadingSpaces_cons_space (rest : Str) :
    leadingSpaces (' ' :: rest) = leadingSpaces rest + 1 := by
  simp [leadingSpaces, List.takeWhile_cons]

/-- C9 (amended): for every matcher, styling, catalog, line and cursor
position, a rendered hint places exactly
`((pos + 1).next_multiple_of(10) - pos) + 1` space characters before the
candidate listing: the padding plus the one literal space of the format
string. -/
theorem hint_padding (m : FuzzyM) (fbug fbu fbg : Str → Str) (j : Justfile)
    (line : Str) (pos : Nat) (h : Str)
    (hh : hintWith m fbug fbu fbg j line pos = some h) :
    leadingSpaces h = (nextMultipleOf (pos + 1) 10 - pos) + 1 := by
  simp only [hintWith] at hh
  by_cases hms : Justfile.matches m j line = []
  · rw [if_pos hms] at hh
    exact absurd hh (by simp)
  · rw [if_neg hms] at hh
    rw [← Option.some_inj.mp hh]
    rw [leadingSpaces_cons_space, leadingSpaces_replicate]

theorem hint_padding_witness :
    (hintWith specMatcher id id id jW [] 0 = some hintVal) ∧
    leadingSpaces hintVal = (nextMultipleOf (0 + 1) 10 - 0) + 1 :=
  ⟨by decide, hint_padding specMatcher id id id jW [] 0 hintVal (by decide)⟩

/-! ### C3 and C10 -/

/-- C3: resolving an absent or empty first token returns the first rule in
catalog order when the catalog is non-empty and no-match when it is empty —
both cases are exactly `j.rules.head?`, for every matcher and catalog. -/
theorem best_match_default (m : FuzzyM) (j : Justfile) :
    Justfile.best_match m j none = j.rules.head? ∧
      Justfile.best_match m j (some []) = j.rules.head? :=
  ⟨rfl, rfl⟩

/-- C10: the alias table never influences matching or dispatch: two catalogs
with identical rule sequences and arbitrarily different alias sequences give
identical `matches` and `best_match` results for every matcher, query and
token. -/
theorem alias_noninterference (m : FuzzyM) (rules : List Rule)
    (a₁ a₂ : List Alias) (q : Str) (p : Option Str) :
    Justfile.matches m ⟨rules, a₁⟩ q = Justfile.matches m ⟨rules, a₂⟩ q ∧
      Justfile.best_match m ⟨rules, a₁⟩ p = Justfile.best_match m ⟨rules, a₂⟩ p :=
  ⟨rfl, rfl⟩
